import Mathlib

/-!
Verification of the formula evaluation engine of the flexibleDataTable
repository (src/components/DataTable/FormulaParser.js), shallowly embedded
in Lean 4.  JavaScript runtime values are modelled by `Value`, numbers by
rationals, rows by association lists, and every string operation is
implemented over the underlying character list so that concrete evaluations
reduce in the kernel.
-/

namespace FormulaParser

/-- JavaScript runtime values that flow through the evaluator: numbers
(modelled as rationals), strings, booleans, `null` and `undefined`. -/
inductive Value where
  | num (q : ℚ)
  | str (s : String)
  | bool (b : Bool)
  | null
  | undefined
  deriving DecidableEq, Repr

/-- A row object: a mapping from field name to value, modelled as an
association list (first binding wins, as in a JavaScript object literal). -/
abbrev Row := List (String × Value)

/-- Whitespace characters removed by `String.prototype.trim` (ASCII subset;
the inputs of this code never carry the exotic Unicode space characters). -/
def jsWhitespace (c : Char) : Bool :=
  c = ' ' || c = '\t' || c = '\n' || c = '\r' || c = '\x0b' || c = '\x0c'

/-- Trim whitespace from both ends of a character list. -/
def trimChars (l : List Char) : List Char :=
  ((l.dropWhile jsWhitespace).reverse.dropWhile jsWhitespace).reverse

/-- Model of `String.prototype.trim`. -/
def jsTrim (s : String) : String := String.mk (trimChars s.data)

/-- Model of `String.prototype.split` with a one-character separator:
splitting on every occurrence, with `"".split(c) = [""]`. -/
def splitOnChar (c : Char) : List Char → List (List Char)
  | [] => [[]]
  | x :: xs =>
    if x = c then [] :: splitOnChar c xs
    else
      match splitOnChar c xs with
      | [] => [[x]]
      | y :: ys => (x :: y) :: ys

/-- `String`-level wrapper of `splitOnChar`. -/
def jsSplit (c : Char) (s : String) : List String :=
  (splitOnChar c s.data).map String.mk

/-- Model of `String.prototype.includes` with a one-character needle. -/
def jsContains (s : String) (c : Char) : Bool := s.data.contains c

/-- Whether the first character of `s` is `c`; models `startsWith` with a
one-character prefix argument. -/
def headIs (s : String) (c : Char) : Bool :=
  match s.data with
  | x :: _ => x = c
  | [] => false

/-- Numeric value of the leading digit run, most significant first. -/
def digitsToNat (l : List Char) : ℕ :=
  l.foldl (fun a c => 10 * a + (c.toNat - Char.toNat '0')) 0

/-- Value of a fraction part: `fracValue ['2','5'] = 1/4`. -/
def fracValue (l : List Char) : ℚ :=
  l.foldr (fun c a => (a + ((c.toNat - Char.toNat '0' : ℕ) : ℚ)) / 10) 0

/-- Model of the JavaScript builtin `parseFloat`, restricted to the shapes
this code feeds it: skip leading whitespace, optional sign, then the longest
prefix of the form `digits`, `digits.digits` or `.digits`; `none` models
`NaN`.  Exponents and the `Infinity` literal are not modelled. -/
def parseFloat (s : String) : Option ℚ :=
  let l := s.data.dropWhile jsWhitespace
  let signAndRest : ℚ × List Char :=
    match l with
    | '-' :: rest => (-1, rest)
    | '+' :: rest => (1, rest)
    | _ => (1, l)
  let ip := signAndRest.2.takeWhile Char.isDigit
  let l2 := signAndRest.2.dropWhile Char.isDigit
  let fp : List Char :=
    match l2 with
    | '.' :: rest => rest.takeWhile Char.isDigit
    | _ => []
  if ip = [] ∧ fp = [] then none
  else some (signAndRest.1 * ((digitsToNat ip : ℚ) + fracValue fp))

/-- The coercion `parseFloat(val) || 0` used by the numeric formula
functions: numbers parse back to themselves, strings are parsed, and every
other value (as well as a failed parse, i.e. `NaN`) collapses to `0`. -/
def toNumber (v : Value) : ℚ :=
  match v with
  | .num q => q
  | .str s => (parseFloat s).getD 0
  | _ => 0

/-- JavaScript truthiness, `Boolean(v)`. -/
def truthy : Value → Bool
  | .num q => q != 0
  | .str s => s != ""
  | .bool b => b
  | .null => false
  | .undefined => false

/-- Comparison `parseFloat(a) > parseFloat(b)`: false when either side is
`NaN`. -/
def nanGT (a b : Option ℚ) : Bool :=
  match a, b with
  | some x, some y => x > y
  | _, _ => false

/-- Comparison `parseFloat(a) < parseFloat(b)`: false when either side is
`NaN`. -/
def nanLT (a b : Option ℚ) : Bool :=
  match a, b with
  | some x, some y => x < y
  | _, _ => false

/-- Mirrors `evaluateCondition` of FormulaParser.js.  JavaScript `split`
cuts at every occurrence of the operator and the destructuring
`[left, right]` keeps the first two pieces. -/
def evaluateCondition (condition : Value) : Bool :=
  match condition with
  | .bool b => b
  | .str s =>
    if jsContains s '=' then
      let parts := jsSplit '=' s
      jsTrim (parts.getD 0 "") == jsTrim (parts.getD 1 "")
    else if jsContains s '>' then
      let parts := jsSplit '>' s
      nanGT (parseFloat (jsTrim (parts.getD 0 ""))) (parseFloat (jsTrim (parts.getD 1 "")))
    else if jsContains s '<' then
      let parts := jsSplit '<' s
      nanLT (parseFloat (jsTrim (parts.getD 0 ""))) (parseFloat (jsTrim (parts.getD 1 "")))
    else truthy (.str s)
  | v => truthy v

/-- Split a character list at the first occurrence of `c` only, returning
the pieces before and after it (only used under a containment guard). -/
def splitFirst (c : Char) : List Char → List Char × List Char
  | [] => ([], [])
  | x :: xs =>
    if x = c then ([], xs)
    else
      let p := splitFirst c xs
      (x :: p.1, p.2)

/-- Modelled from the spec: the IF condition rule as the specification
words it, namely "split once on the first occurrence and compare the two
trimmed sides" — to be compared with `evaluateCondition`, which is the
behaviour of the source. -/
def evaluateConditionSpec (condition : Value) : Bool :=
  match condition with
  | .bool b => b
  | .str s =>
    if jsContains s '=' then
      let p := splitFirst '=' s.data
      jsTrim (String.mk p.1) == jsTrim (String.mk p.2)
    else if jsContains s '>' then
      let p := splitFirst '>' s.data
      nanGT (parseFloat (jsTrim (String.mk p.1))) (parseFloat (jsTrim (String.mk p.2)))
    else if jsContains s '<' then
      let p := splitFirst '<' s.data
      nanLT (parseFloat (jsTrim (String.mk p.1))) (parseFloat (jsTrim (String.mk p.2)))
    else truthy (.str s)
  | v => truthy v

/-- Sum of the arguments under the numeric coercion, shared by SUM and
AVG. -/
def sumArgs (args : List Value) : ℚ :=
  args.foldl (fun acc v => acc + toNumber v) 0

/-- The SUM entry of the function table. -/
def SUM (args : List Value) : Value := .num (sumArgs args)

/-- The AVG entry of the function table: SUM divided by the argument count,
`0` when there are zero arguments. -/
def AVG (args : List Value) : Value :=
  if args.length = 0 then .num 0
  else .num (sumArgs args / (args.length : ℚ))

/-- The MIN entry of the function table.  On an empty list the JavaScript
`Math.min()` yields `Infinity`; that branch is unreachable from
`evaluateFormula` because splitting always produces at least one argument,
and is modelled by `null`. -/
def MIN (args : List Value) : Value :=
  match args.map toNumber with
  | [] => .null
  | x :: xs => .num (xs.foldl min x)

/-- The MAX entry of the function table; the empty case mirrors `MIN`. -/
def MAX (args : List Value) : Value :=
  match args.map toNumber with
  | [] => .null
  | x :: xs => .num (xs.foldl max x)

/-- The COUNT entry of the function table. -/
def COUNT (args : List Value) : Value := .num (args.length : ℚ)

/-- The IF entry of the function table: fewer than three arguments give
`null`, otherwise the condition selects the second or third argument. -/
def IF (args : List Value) : Value :=
  match args with
  | cond :: t :: e :: _ => if evaluateCondition cond then t else e
  | _ => .null

/-- The function table `FORMULA_FUNCTIONS`, as a lookup from the captured
uppercase name. -/
def FORMULA_FUNCTIONS (name : String) : Option (List Value → Value) :=
  if name = "SUM" then some SUM
  else if name = "AVG" then some AVG
  else if name = "MIN" then some MIN
  else if name = "MAX" then some MAX
  else if name = "COUNT" then some COUNT
  else if name = "IF" then some IF
  else none

/-- Whether `c` is an ASCII uppercase letter, the character class `[A-Z]`. -/
def isUpperAZ (c : Char) : Bool := 'A' ≤ c && c ≤ 'Z'

/-- Line terminators, which the regular-expression metacharacter `.` does
not match. -/
def lineTerm (c : Char) : Bool :=
  c = '\n' || c = '\r' || c = '\u2028' || c = '\u2029'

/-- The anchored match `formula.match(/^=([A-Z]+)\((.*)\)$/)` of
`evaluateFormula`: the name is the maximal uppercase run after `=`, the
following character must be `(`, the final character must be `)` (the
greedy `(.*)` pairs the first `(` with the last character), and the
argument text in between may not contain a line terminator.  Returns the
two capture groups. -/
def matchFormula (s : String) : Option (String × String) :=
  if s.data.head? = some '=' then
    if (s.data.tail.takeWhile isUpperAZ).isEmpty then none
    else if (s.data.tail.dropWhile isUpperAZ).head? = some '(' then
      if (s.data.tail.dropWhile isUpperAZ).tail.getLast? = some ')' then
        if (s.data.tail.dropWhile isUpperAZ).tail.dropLast.any lineTerm then none
        else
          some (String.mk (s.data.tail.takeWhile isUpperAZ),
            String.mk (s.data.tail.dropWhile isUpperAZ).tail.dropLast)
      else none
    else none
  else none

/-- JavaScript property read `rowData[key]`: an absent key reads as
`undefined`. -/
def rowGet (row : Row) (key : String) : Value :=
  match row.find? (fun p => p.1 == key) with
  | some p => p.2
  | none => .undefined

/-- Fuel-indexed core of `evaluateFormula`: one unit of fuel is consumed per
nested-formula recursion.  Fuel `s.length + 1` always suffices because each
recursive call receives a strictly shorter string (theorem
`evalFuel_agrees_evaluateFormula`). -/
def evalFuel : ℕ → String → Row → Value
  | 0, s, _ => .str s
  | fuel + 1, s, row =>
    match matchFormula s with
    | none => .str s
    | some (name, argsString) =>
      match FORMULA_FUNCTIONS name with
      | none => .str ("Unknown function: " ++ name)
      | some func =>
        func ((jsSplit ',' argsString).map (fun arg =>
          let trimmed := jsTrim arg
          if rowGet row trimmed != .undefined then rowGet row trimmed
          else if headIs trimmed '=' then evalFuel fuel trimmed row
          else .str trimmed))

/-- Mirrors `evaluateFormula` of FormulaParser.js: non-strings, the empty
string and strings without a leading `=` pass through unchanged; everything
else is parsed and dispatched. -/
def evaluateFormula (formula : Value) (row : Row) : Value :=
  match formula with
  | .str s => if headIs s '=' then evalFuel (s.length + 1) s row else .str s
  | v => v

/-- Word characters of the regular-expression class `\w`. -/
def isWordChar (c : Char) : Bool :=
  ('A' ≤ c && c ≤ 'Z') || ('a' ≤ c && c ≤ 'z') || ('0' ≤ c && c ≤ '9') || c = '_'

/-- Whether position `i` of `l` holds a word character (out of range counts
as non-word). -/
def wordAt (l : List Char) (i : ℕ) : Bool :=
  match l.get? i with
  | some c => isWordChar c
  | none => false

/-- The regular-expression word boundary `\b` at position `i`: exactly one
of the two neighbouring positions holds a word character. -/
def boundaryAt (l : List Char) (i : ℕ) : Bool :=
  (if i = 0 then false else wordAt l (i - 1)) != wordAt l i

/-- Whether `field` occurs in `formula` starting at position `i` with a word
boundary on both sides. -/
def matchesAt (field formula : List Char) (i : ℕ) : Bool :=
  field.isPrefixOf (formula.drop i) && boundaryAt formula i
    && boundaryAt formula (i + field.length)

/-- Model of `new RegExp("\\b" + field + "\\b").test(formula)` for field
names made of word characters (the only fields this code is used with). -/
def wordBoundaryTest (field : String) (formula : String) : Bool :=
  (List.range (formula.length + 1)).any (matchesAt field.data formula.data)

/-- Mirrors `hasCircularReference` of FormulaParser.js. -/
def hasCircularReference (formula : Value) (fieldName : String) : Bool :=
  match formula with
  | .str s => if s = "" then false else wordBoundaryTest fieldName s
  | _ => false

/-- Mirrors `getFormulaDependencies` of FormulaParser.js: a falsy or
non-string formula or an absent field list give `[]`; otherwise each known
field is tested as a whole word against the formula and pushed in field
order. -/
def getFormulaDependencies (formula : Value) (allFields : Option (List String)) :
    List String :=
  match formula, allFields with
  | .str s, some fields =>
    if s = "" then []
    else
      fields.foldl
        (fun deps field => if wordBoundaryTest field s then deps ++ [field] else deps)
        []
  | _, _ => []

/-! ## Helper lemmas -/

theorem string_length_eq_data (s : String) : s.length = s.data.length := rfl

theorem splitOnChar_ne_nil (c : Char) (l : List Char) : splitOnChar c l ≠ [] := by
  induction l with
  | nil => simp [splitOnChar]
  | cons x xs ih =>
    simp only [splitOnChar]
    split
    · simp
    · split
      · simp
      · simp

theorem length_le_of_mem_splitOnChar {c : Char} {l a : List Char}
    (h : a ∈ splitOnChar c l) : a.length ≤ l.length := by
  induction l generalizing a with
  | nil =>
    simp only [splitOnChar, List.mem_singleton] at h
    simp [h]
  | cons x xs ih =>
    simp only [splitOnChar] at h
    by_cases hx : x = c
    · rw [if_pos hx] at h
      rcases List.mem_cons.mp h with h0 | h1
      · simp [h0]
      · exact (ih h1).trans (by simp)
    · rw [if_neg hx] at h
      cases hs : splitOnChar c xs with
      | nil => exact absurd hs (splitOnChar_ne_nil c xs)
      | cons y ys =>
        rw [hs] at h
        rcases List.mem_cons.mp h with h0 | h1
        · subst h0
          have hy : y.length ≤ xs.length := ih (by rw [hs]; exact List.mem_cons_self _ _)
          simpa using Nat.succ_le_succ hy
        · have ha : a ∈ splitOnChar c xs := by rw [hs]; exact List.mem_cons_of_mem _ h1
          exact (ih ha).trans (by simp)

theorem trimChars_length_le (l : List Char) : (trimChars l).length ≤ l.length := by
  unfold trimChars
  calc ((l.dropWhile jsWhitespace).reverse.dropWhile jsWhitespace).reverse.length
      = ((l.dropWhile jsWhitespace).reverse.dropWhile jsWhitespace).length := by
        simp
    _ ≤ (l.dropWhile jsWhitespace).reverse.length :=
        (List.dropWhile_sublist (l := (l.dropWhile jsWhitespace).reverse) jsWhitespace).length_le
    _ = (l.dropWhile jsWhitespace).length := by simp
    _ ≤ l.length := (List.dropWhile_sublist (l := l) jsWhitespace).length_le

theorem jsTrim_length_le (s : String) : (jsTrim s).length ≤ s.length :=
  trimChars_length_le s.data

theorem matchFormula_some_spec {s name args : String}
    (h : matchFormula s = some (name, args)) :
    headIs s '=' = true ∧ args.length + 4 ≤ s.length := by
  unfold matchFormula at h
  by_cases h1 : s.data.head? = some '='
  case neg => rw [if_neg h1] at h; exact absurd h (by simp)
  rw [if_pos h1] at h
  by_cases h2 : (s.data.tail.takeWhile isUpperAZ).isEmpty = true
  case pos => rw [if_pos h2] at h; exact absurd h (by simp)
  rw [if_neg h2] at h
  by_cases h3 : (s.data.tail.dropWhile isUpperAZ).head? = some '('
  case neg => rw [if_neg h3] at h; exact absurd h (by simp)
  rw [if_pos h3] at h
  by_cases h4 : (s.data.tail.dropWhile isUpperAZ).tail.getLast? = some ')'
  case neg => rw [if_neg h4] at h; exact absurd h (by simp)
  rw [if_pos h4] at h
  by_cases h5 : (s.data.tail.dropWhile isUpperAZ).tail.dropLast.any lineTerm = true
  case pos => rw [if_pos h5] at h; exact absurd h (by simp)
  rw [if_neg h5] at h
  simp only [Option.some.injEq, Prod.mk.injEq] at h
  obtain ⟨hname, hargs⟩ := h
  constructor
  · cases hl : s.data with
    | nil => rw [hl] at h1; simp at h1
    | cons x xs =>
      rw [hl] at h1
      simp only [List.head?_cons, Option.some.injEq] at h1
      simp [headIs, hl, h1]
  · have htw : 1 ≤ (s.data.tail.takeWhile isUpperAZ).length := by
      cases hc : s.data.tail.takeWhile isUpperAZ with
      | nil => rw [hc] at h2; simp at h2
      | cons _ _ => simp
    have hdw1 : 1 ≤ (s.data.tail.dropWhile isUpperAZ).length := by
      cases hc : s.data.tail.dropWhile isUpperAZ with
      | nil => rw [hc] at h3; simp at h3
      | cons _ _ => simp
    have hdwt : 1 ≤ (s.data.tail.dropWhile isUpperAZ).tail.length := by
      cases hc : (s.data.tail.dropWhile isUpperAZ).tail with
      | nil => rw [hc] at h4; simp at h4
      | cons _ _ => simp
    have hhd : 1 ≤ s.data.length := by
      cases hc : s.data with
      | nil => rw [hc] at h1; simp at h1
      | cons _ _ => simp
    have hsplit : (s.data.tail.takeWhile isUpperAZ).length
        + (s.data.tail.dropWhile isUpperAZ).length = s.data.tail.length := by
      rw [← List.length_append, List.takeWhile_append_dropWhile]
    have hargslen : args.data.length
        = (s.data.tail.dropWhile isUpperAZ).tail.dropLast.length := by
      rw [← hargs]
    have hs : s.length = s.data.length := rfl
    have ha : args.length = args.data.length := rfl
    have htail : s.data.tail.length = s.data.length - 1 := List.length_tail _
    have hdrop : (s.data.tail.dropWhile isUpperAZ).tail.dropLast.length
        = (s.data.tail.dropWhile isUpperAZ).tail.length - 1 := List.length_dropLast _
    have htail2 : (s.data.tail.dropWhile isUpperAZ).tail.length
        = (s.data.tail.dropWhile isUpperAZ).length - 1 := List.length_tail _
    omega

theorem matchFormula_none_of_head {s : String} (h : headIs s '=' = false) :
    matchFormula s = none := by
  have h' : ¬ s.data.head? = some '=' := by
    cases hl : s.data with
    | nil => simp
    | cons x xs =>
      have hx : ¬ x = '=' := by simpa [headIs, hl] using h
      simp [hx]
  unfold matchFormula
  rw [if_neg h']

theorem jsSplit_mem_length {c : Char} {s arg : String} (h : arg ∈ jsSplit c s) :
    arg.length ≤ s.length := by
  obtain ⟨l, hl, rfl⟩ := List.mem_map.mp h
  exact length_le_of_mem_splitOnChar hl

theorem trimmed_arg_lt {s name argsString arg : String}
    (hm : matchFormula s = some (name, argsString)) (ha : arg ∈ jsSplit ',' argsString) :
    (jsTrim arg).length < s.length := by
  have h1 := (matchFormula_some_spec hm).2
  have h2 := jsSplit_mem_length ha
  have h3 := jsTrim_length_le arg
  omega

theorem evalFuel_succ (n : ℕ) (s : String) (row : Row) :
    evalFuel (n + 1) s row =
      match matchFormula s with
      | none => .str s
      | some (name, argsString) =>
        match FORMULA_FUNCTIONS name with
        | none => .str ("Unknown function: " ++ name)
        | some func =>
          func ((jsSplit ',' argsString).map (fun arg =>
            let trimmed := jsTrim arg
            if rowGet row trimmed != .undefined then rowGet row trimmed
            else if headIs trimmed '=' then evalFuel n trimmed row
            else .str trimmed)) := rfl

theorem evalFuel_eq_of_lt (row : Row) :
    ∀ (k : ℕ) (s : String) (n : ℕ), s.length ≤ k → s.length < n →
      evalFuel n s row = evalFuel (s.length + 1) s row := by
  intro k
  induction k using Nat.strong_induction_on with
  | _ k ih =>
    intro s n hk hn
    cases n with
    | zero => exact absurd hn (Nat.not_lt_zero _)
    | succ n' =>
      rw [evalFuel_succ, evalFuel_succ]
      cases hm : matchFormula s with
      | none => rfl
      | some p =>
        obtain ⟨name, argsString⟩ := p
        have hmap : (jsSplit ',' argsString).map (fun arg =>
              let trimmed := jsTrim arg
              if rowGet row trimmed != Value.undefined then rowGet row trimmed
              else if headIs trimmed '=' then evalFuel n' trimmed row
              else Value.str trimmed)
            = (jsSplit ',' argsString).map (fun arg =>
              let trimmed := jsTrim arg
              if rowGet row trimmed != Value.undefined then rowGet row trimmed
              else if headIs trimmed '=' then evalFuel s.length trimmed row
              else Value.str trimmed) := by
          apply List.map_congr_left
          intro arg ha
          have hlt : (jsTrim arg).length < s.length := trimmed_arg_lt hm ha
          dsimp only
          by_cases hrv : (rowGet row (jsTrim arg) != Value.undefined) = true
          · rw [if_pos hrv, if_pos hrv]
          · rw [if_neg hrv, if_neg hrv]
            by_cases hhd : headIs (jsTrim arg) '=' = true
            · rw [if_pos hhd, if_pos hhd]
              have e1 : evalFuel n' (jsTrim arg) row
                  = evalFuel ((jsTrim arg).length + 1) (jsTrim arg) row :=
                ih (jsTrim arg).length (by omega) (jsTrim arg) n' le_rfl (by omega)
              have e2 : evalFuel s.length (jsTrim arg) row
                  = evalFuel ((jsTrim arg).length + 1) (jsTrim arg) row :=
                ih (jsTrim arg).length (by omega) (jsTrim arg) s.length le_rfl hlt
              rw [e1, e2]
            · rw [if_neg hhd, if_neg hhd]
        dsimp only
        rw [hmap]

theorem evaluateFormula_eq_evalFuel {s : String} (row : Row) (hh : headIs s '=' = true) :
    evaluateFormula (.str s) row = evalFuel (s.length + 1) s row := by
  show (if headIs s '=' = true then evalFuel (s.length + 1) s row else .str s) = _
  rw [if_pos hh]

theorem splitOnChar_of_not_mem {c : Char} {l : List Char} (h : c ∉ l) :
    splitOnChar c l = [l] := by
  induction l with
  | nil => rfl
  | cons x xs ih =>
    have hx : ¬ x = c := fun hc => h (hc ▸ List.mem_cons_self x xs)
    have hxs : c ∉ xs := fun hc => h (List.mem_cons_of_mem _ hc)
    simp only [splitOnChar, if_neg hx, ih hxs]

theorem splitFirst_decomp {c : Char} {l : List Char} (h : c ∈ l) :
    (splitFirst c l).1 ++ c :: (splitFirst c l).2 = l ∧ c ∉ (splitFirst c l).1 := by
  induction l with
  | nil => cases h
  | cons x xs ih =>
    by_cases hx : x = c
    · subst hx
      simp [splitFirst]
    · have hmem : c ∈ xs := by
        rcases List.mem_cons.mp h with h0 | h1
        · exact absurd h0.symm hx
        · exact h1
      obtain ⟨ihd, ihn⟩ := ih hmem
      constructor
      · simp only [splitFirst, if_neg hx]
        simpa using ihd
      · simp only [splitFirst, if_neg hx]
        intro hc
        rcases List.mem_cons.mp hc with h0 | h1
        · exact hx h0.symm
        · exact ihn h1

theorem splitOnChar_append_cons (c : Char) (b a : List Char)
    (hb : c ∉ b) (ha : c ∉ a) : splitOnChar c (b ++ c :: a) = [b, a] := by
  induction b with
  | nil => simp [splitOnChar, splitOnChar_of_not_mem ha]
  | cons x b' ih =>
    have hx : ¬ x = c := fun hc => hb (hc ▸ List.mem_cons_self x b')
    have hb' : c ∉ b' := fun hc => hb (List.mem_cons_of_mem _ hc)
    simp [splitOnChar, hx, ih hb']

theorem jsSplit_pair_of_count_one {c : Char} {s : String}
    (h1 : s.data.count c = 1) :
    jsSplit c s = [String.mk (splitFirst c s.data).1, String.mk (splitFirst c s.data).2] := by
  have hmem : c ∈ s.data := by
    by_contra hn
    rw [List.count_eq_zero.mpr hn] at h1
    exact absurd h1 (by simp)
  obtain ⟨hdec, hnb⟩ := splitFirst_decomp hmem
  have hna : c ∉ (splitFirst c s.data).2 := by
    intro hma
    have hc2 : 2 ≤ s.data.count c := by
      conv_rhs => rw [← hdec]
      rw [List.count_append, List.count_cons]
      have hpos : 1 ≤ (splitFirst c s.data).2.count c := List.count_pos_iff.mpr hma
      simp
      omega
    omega
  have hpair : splitOnChar c s.data
      = [(splitFirst c s.data).1, (splitFirst c s.data).2] := by
    conv_lhs => rw [← hdec]
    exact splitOnChar_append_cons _ _ _ hnb hna
  simp [jsSplit, hpair]

theorem foldl_push_eq_filter (p : String → Bool) (fields acc : List String) :
    fields.foldl (fun deps f => if p f then deps ++ [f] else deps) acc
      = acc ++ fields.filter p := by
  induction fields generalizing acc with
  | nil => simp
  | cons f fs ih =>
    simp only [List.foldl_cons]
    by_cases hp : p f = true
    · rw [if_pos hp, ih, List.filter_cons_of_pos hp]
      simp
    · rw [if_neg hp, ih, List.filter_cons_of_neg (by simpa using hp)]

theorem wordBoundaryTest_empty_formula (f : String) :
    wordBoundaryTest f "" = false := by
  have hd : ("" : String).data = [] := rfl
  have hl : ("" : String).length = 0 := rfl
  unfold wordBoundaryTest
  rw [hd, hl]
  simp only [List.range, List.range.loop, List.any_cons, List.any_nil, Bool.or_false]
  unfold matchesAt
  cases hf : f.data with
  | nil => simp [boundaryAt, wordAt]
  | cons x xs => simp [List.isPrefixOf]

/-! ## Claim theorems -/

/-- C1, counterexample: contrary to the spec example,
`evaluate("=SUM(=SUM(a,b),c)", {a:1,b:2,c:3})` does not return 6 — the argument
text is split on every comma, which fragments the nested formula. -/
theorem nested_sum_comma_split_ne_six :
    evaluateFormula (.str "=SUM(=SUM(a,b),c)")
      [("a", .num 1), ("b", .num 2), ("c", .num 3)] ≠ Value.num 6 := by
  with_unfolding_all decide

/-- C1, amended: `evaluate("=SUM(=SUM(a,b),c)", {a:1,b:2,c:3})` returns 3: the
comma split fragments the nested formula into `=SUM(a` and `b)`; the first is
recursively evaluated but fails the grammar and comes back unchanged, both
fragments then coerce to 0, and `c` contributes 3. -/
theorem nested_sum_comma_split_eq_three :
    evaluateFormula (.str "=SUM(=SUM(a,b),c)")
      [("a", .num 1), ("b", .num 2), ("c", .num 3)] = Value.num 3 := by
  with_unfolding_all decide

/-- C2, counterexample: contrary to the spec example,
`evaluate("=IF(a>b,a,b)", {a:5,b:2})` does not return 5 — the condition
argument `a>b` is taken literally, field names are not substituted inside it. -/
theorem if_field_condition_ne_five :
    evaluateFormula (.str "=IF(a>b,a,b)")
      [("a", .num 5), ("b", .num 2)] ≠ Value.num 5 := by
  with_unfolding_all decide

/-- C2, amended: `evaluate("=IF(a>b,a,b)", {a:5,b:2})` returns 2: the condition
string `a>b` is not a field of the row, so it stays literal; `parseFloat("a")`
is NaN and the numeric comparison is false, selecting the else value `b = 2`.
With `{a:"x", b:"x"}`, `evaluate("=IF(a=b,a,b)")` returns `"x"`, also via the
else branch, because the literal string equality `"a" = "b"` is false. -/
theorem if_examples_actual_results :
    evaluateFormula (.str "=IF(a>b,a,b)")
      [("a", .num 5), ("b", .num 2)] = Value.num 2
    ∧ evaluateFormula (.str "=IF(a=b,a,b)")
      [("a", .str "x"), ("b", .str "x")] = Value.str "x" := by
  exact ⟨by with_unfolding_all decide, by with_unfolding_all decide⟩

/-- C3: every input that is not a string, or is a string that fails the anchored
pattern `^=([A-Z]+)\((.*)\)$` (which subsumes being empty or lacking a leading
`=`), passes through `evaluateFormula` unchanged, for every row. -/
theorem nonmatching_input_passthrough (v : Value) (row : Row)
    (h : ∀ s, v = Value.str s → matchFormula s = none) :
    evaluateFormula v row = v := by
  cases v with
  | str s =>
    have hm := h s rfl
    cases hh : headIs s '=' with
    | false =>
      show (if headIs s '=' = true then evalFuel (s.length + 1) s row
        else .str s) = _
      rw [if_neg (by simp [hh])]
    | true =>
      rw [evaluateFormula_eq_evalFuel row hh]
      cases hl : s.length with
      | zero => rw [evalFuel_succ, hm]
      | succ m => rw [evalFuel_succ, hm]
  | num q => rfl
  | bool b => rfl
  | null => rfl
  | undefined => rfl

/-- C3, witness: the lowercase-name formula `=sum(a)` fails the pattern and
passes through unchanged. -/
theorem nonmatching_input_passthrough_witness :
    evaluateFormula (Value.str "=sum(a)") [] = Value.str "=sum(a)" :=
  nonmatching_input_passthrough (Value.str "=sum(a)") []
    (fun s hs => by cases hs; decide)

/-- C4, counterexample: on the condition `x=x=y` the code returns true (it
splits on every `=` and compares the first two pieces, `x` and `x`), while the
claim's split-once-on-the-first-occurrence reading compares `x` with `x=y`
and returns false. -/
theorem condition_split_once_counterexample :
    evaluateCondition (.str "x=x=y") = true
    ∧ evaluateConditionSpec (.str "x=x=y") = false := by
  exact ⟨by decide, by decide⟩

/-- C4, amended: the condition string is split on every occurrence of the
chosen operator (priority `=`, `>`, `<`) and the first two trimmed pieces are
compared; this agrees with the split-once-on-first-occurrence description
whenever the CHOSEN operator occurs at most once in the condition.  The
hypotheses follow the priority chain: they constrain `=` only when `=` is
present, `>` only when `=` is absent and `>` present, and `<` only when both
are absent and `<` present; the other operators may occur any number of
times. -/
theorem condition_split_agreement_single_operator (s : String)
    (h1 : jsContains s '=' = true → s.data.count '=' ≤ 1)
    (h2 : jsContains s '=' = false → jsContains s '>' = true →
      s.data.count '>' ≤ 1)
    (h3 : jsContains s '=' = false → jsContains s '>' = false →
      jsContains s '<' = true → s.data.count '<' ≤ 1) :
    evaluateCondition (.str s) = evaluateConditionSpec (.str s) := by
  have heq : ∀ c : Char, jsContains s c = true → s.data.count c ≤ 1 →
      (jsSplit c s).getD 0 "" = String.mk (splitFirst c s.data).1
      ∧ (jsSplit c s).getD 1 "" = String.mk (splitFirst c s.data).2 := by
    intro c hc hcount
    have hmem : c ∈ s.data := by simpa [jsContains] using hc
    have hone : s.data.count c = 1 :=
      le_antisymm hcount (List.count_pos_iff.mpr hmem)
    rw [jsSplit_pair_of_count_one hone]
    exact ⟨rfl, rfl⟩
  dsimp only [evaluateCondition, evaluateConditionSpec]
  by_cases hce : jsContains s '=' = true
  · rw [if_pos hce, if_pos hce]
    obtain ⟨g0, g1⟩ := heq '=' hce (h1 hce)
    rw [g0, g1]
  · have hceF : jsContains s '=' = false := by simpa using hce
    rw [if_neg hce, if_neg hce]
    by_cases hcg : jsContains s '>' = true
    · rw [if_pos hcg, if_pos hcg]
      obtain ⟨g0, g1⟩ := heq '>' hcg (h2 hceF hcg)
      rw [g0, g1]
    · have hcgF : jsContains s '>' = false := by simpa using hcg
      rw [if_neg hcg, if_neg hcg]
      by_cases hcl : jsContains s '<' = true
      · rw [if_pos hcl, if_pos hcl]
        obtain ⟨g0, g1⟩ := heq '<' hcl (h3 hceF hcgF hcl)
        rw [g0, g1]
      · rw [if_neg hcl, if_neg hcl]

/-- C4, witness: on `x=y<z<w` the chosen operator `=` occurs once (while `<`
occurs twice), so the code and the split-once description agree. -/
theorem condition_split_agreement_single_operator_witness :
    evaluateCondition (.str "x=y<z<w") = evaluateConditionSpec (.str "x=y<z<w") :=
  condition_split_agreement_single_operator "x=y<z<w"
    (by decide) (by decide) (by decide)

/-- C5: a formula that matches the grammar but names an unregistered function
evaluates to the diagnostic string `Unknown function: NAME`, for every row. -/
theorem unknown_function_diagnostic (s name args : String) (row : Row)
    (hm : matchFormula s = some (name, args))
    (hf : FORMULA_FUNCTIONS name = none) :
    evaluateFormula (.str s) row = .str ("Unknown function: " ++ name) := by
  have hh := (matchFormula_some_spec hm).1
  rw [evaluateFormula_eq_evalFuel row hh, evalFuel_succ, hm]
  dsimp only
  rw [hf]

/-- C5, witness: `=UNKNOWNFUNC(a)` produces its diagnostic string. -/
theorem unknown_function_diagnostic_witness :
    evaluateFormula (.str "=UNKNOWNFUNC(a)") []
      = Value.str "Unknown function: UNKNOWNFUNC" :=
  unknown_function_diagnostic "=UNKNOWNFUNC(a)" "UNKNOWNFUNC" "a" []
    (by decide) rfl

/-- C6: the IF implementation returns null on fewer than three arguments, and
in particular `evaluate("=IF(a,b)", row)` is null for every row, silently. -/
theorem if_arity_below_three_null :
    (∀ args : List Value, args.length < 3 → IF args = Value.null)
    ∧ ∀ row : Row, evaluateFormula (.str "=IF(a,b)") row = Value.null := by
  constructor
  · intro args h
    rcases args with _ | ⟨a, _ | ⟨b, _ | ⟨c, rest⟩⟩⟩
    · rfl
    · rfl
    · rfl
    · simp only [List.length_cons] at h; omega
  · intro row
    have hh : headIs "=IF(a,b)" '=' = true := by decide
    have hm : matchFormula "=IF(a,b)" = some ("IF", "a,b") := by decide
    have hf : FORMULA_FUNCTIONS "IF" = some IF := rfl
    have hsplit : jsSplit ',' "a,b" = ["a", "b"] := by decide
    rw [evaluateFormula_eq_evalFuel row hh, evalFuel_succ, hm]
    dsimp only
    rw [hf]
    dsimp only
    rw [hsplit, List.map_cons, List.map_cons, List.map_nil]
    rfl

/-- C6, witness: a one-element argument list gives null. -/
theorem if_arity_below_three_null_witness : IF [Value.str "c"] = Value.null :=
  if_arity_below_three_null.1 [Value.str "c"] (by decide)

/-- C7: `evaluate("=AVG()", {})` returns 0 — the empty argument text still
yields one (empty-string) argument, the sum coerces to 0, and 0 divided by the
argument count 1 is 0; no division by zero occurs. -/
theorem avg_empty_args_zero :
    evaluateFormula (.str "=AVG()") [] = Value.num 0 := by
  with_unfolding_all decide

/-- C8: `getFormulaDependencies` returns exactly the known fields that match
the formula as a whole word (word-boundary test, not substring), in the order
of the known-field list; a non-string formula or an absent field list gives
the empty list.  The spec example returns `["price", "tax"]`. -/
theorem dependencies_whole_word_field_order :
    getFormulaDependencies (.str "=SUM(price,tax)")
        (some ["price", "tax", "name"]) = ["price", "tax"]
    ∧ (∀ (s : String) (fields : List String),
        getFormulaDependencies (.str s) (some fields)
          = fields.filter (fun f => wordBoundaryTest f s))
    ∧ (∀ v : Value, getFormulaDependencies v none = [])
    ∧ (∀ (q : ℚ) (fields : Option (List String)),
        getFormulaDependencies (.num q) fields = [])
    ∧ (∀ (b : Bool) (fields : Option (List String)),
        getFormulaDependencies (.bool b) fields = [])
    ∧ (∀ fields : Option (List String),
        getFormulaDependencies Value.null fields = [])
    ∧ (∀ fields : Option (List String),
        getFormulaDependencies Value.undefined fields = [])
    ∧ (∀ fields : List String,
        getFormulaDependencies (.str "") (some fields) = []) := by
  refine ⟨by decide, ?_, ?_, ?_, ?_, ?_, ?_, ?_⟩
  · intro s fields
    by_cases hs : s = ""
    · subst hs
      have hnil : getFormulaDependencies (.str "") (some fields) = [] := rfl
      rw [hnil]
      symm
      simp [List.filter_eq_nil_iff, wordBoundaryTest_empty_formula]
    · have hfold := foldl_push_eq_filter (fun f => wordBoundaryTest f s) fields []
      dsimp only [getFormulaDependencies]
      rw [if_neg hs]
      simpa using hfold
  · intro v; cases v <;> rfl
  · intro q fields; cases fields <;> rfl
  · intro b fields; cases fields <;> rfl
  · intro fields; cases fields <;> rfl
  · intro fields; cases fields <;> rfl
  · intro fields; rfl

/-- C9: evaluation always terminates with a value: the fuel-indexed evaluator
is independent of the fuel as soon as the fuel exceeds the formula length,
because every nested-formula recursion receives a strictly shorter string, and
it then coincides with `evaluateFormula`. -/
theorem evaluation_terminating_fuel_irrelevant (s : String) (row : Row) (n : ℕ)
    (h : s.length < n) : evalFuel n s row = evaluateFormula (.str s) row := by
  cases hh : headIs s '=' with
  | true =>
    rw [evaluateFormula_eq_evalFuel row hh]
    exact evalFuel_eq_of_lt row s.length s n le_rfl h
  | false =>
    have hm := matchFormula_none_of_head hh
    have hpass : evaluateFormula (.str s) row = .str s := by
      show (if headIs s '=' = true then evalFuel (s.length + 1) s row
        else .str s) = _
      rw [if_neg (by simp [hh])]
    cases n with
    | zero => exact absurd h (Nat.not_lt_zero _)
    | succ n' => rw [hpass, evalFuel_succ, hm]

/-- C9, witness: at fuel 100 the evaluator agrees with `evaluateFormula` on a
concrete formula. -/
theorem evaluation_terminating_fuel_irrelevant_witness :
    ("=SUM(a)" : String).length < 100
    ∧ evalFuel 100 "=SUM(a)" [("a", Value.num 2)]
        = evaluateFormula (.str "=SUM(a)") [("a", Value.num 2)] :=
  ⟨by decide, evaluation_terminating_fuel_irrelevant "=SUM(a)"
    [("a", Value.num 2)] 100 (by decide)⟩

/-- C10: splitting on commas always yields at least one piece — hence a
function implementation is never invoked with an empty argument list — and in
particular `evaluate("=COUNT()", row)` returns 1 for every row. -/
theorem split_always_nonempty_count_one :
    (∀ (c : Char) (l : List Char), splitOnChar c l ≠ [])
    ∧ (∀ (c : Char) (s : String), 1 ≤ (jsSplit c s).length)
    ∧ (∀ row : Row, evaluateFormula (.str "=COUNT()") row = Value.num 1) := by
  refine ⟨splitOnChar_ne_nil, ?_, ?_⟩
  · intro c s
    have hpos : 0 < (splitOnChar c s.data).length :=
      List.length_pos.mpr (splitOnChar_ne_nil c s.data)
    simpa [jsSplit] using hpos
  · intro row
    have hh : headIs "=COUNT()" '=' = true := by decide
    have hm : matchFormula "=COUNT()" = some ("COUNT", "") := by decide
    have hf : FORMULA_FUNCTIONS "COUNT" = some COUNT := rfl
    have hsplit : jsSplit ',' "" = [""] := by decide
    rw [evaluateFormula_eq_evalFuel row hh, evalFuel_succ, hm]
    dsimp only
    rw [hf]
    dsimp only
    rw [hsplit, List.map_cons, List.map_nil]
    show COUNT [_] = Value.num 1
    simp [COUNT]

end FormulaParser
